import Mathlib

/-!
Verification of the multi-agent turn orchestrator of `rws-app`.

The repository's own code for this subsystem is `src/collaboration.py`
(the registry map, the fixed-workflow selection strategy, the chat
constructors).  The surrounding run loop, the round-robin strategy, the
dynamic (lead-selection) strategy and the transcript data structure are
provided by an external SDK and are not part of the repository's
sources; where a claim depends on them they are modelled from the
specification, each such definition marked `Modelled from the spec:`.

Conventions: a transcript is a `List Turn` grown at the tail; an agent
reply is `Except String String` (error = raised invocation); machine
state is passed explicitly.
-/

/-- Modelled from the spec: a `Turn` is one contribution to the
conversation — speaker identity, text content, and the sequence number
assigned by the transcript at append time (§3). -/
structure Turn where
  speaker : String
  content : String
  sequence : Nat
deriving Repr, DecidableEq

/-- An agent capability: a name plus an invocation taking the transcript
so far and returning a reply, or an error when the invocation raises
(spec §6: `invoke(transcript_view) -> text reply`, may fail). -/
structure Agent where
  name : String
  invoke : List Turn → Except String String

/-- From `collaboration.py` line 52: `agent_map = {agent.name: agent for
agent in agents}` — a Python dict comprehension keyed by name; on
duplicate names the later entry overwrites the earlier one, so lookup
returns the last agent bearing the name. -/
def agent_map (agents : List Agent) (name : String) : Option Agent :=
  (agents.filter (fun a => a.name == name)).getLast?

/-- Modelled from the spec: the Agent Registry lookup used by the
orchestrator loop (§3) — agent names are unique, so we take the first
agent with the given name. -/
def registryLookup (agents : List Agent) (name : String) : Option Agent :=
  agents.find? (fun a => a.name == name)

/-- The mutable state of `FixedWorkflowStrategy` (`collaboration.py`
lines 59–65): the workflow sequence, the selection counter, and the
`_has_selected` flag. -/
structure FixedWorkflowState where
  workflow_sequence : List String
  counter : Nat
  has_selected : Bool
deriving Repr, DecidableEq

/-- Initial strategy state built by `FixedWorkflowStrategy.__init__`
(`collaboration.py` lines 60–65). -/
def FixedWorkflowState.init (workflow_sequence : List String) : FixedWorkflowState :=
  ⟨workflow_sequence, 0, false⟩

/-- `FixedWorkflowStrategy.next` (`collaboration.py` lines 67–75):
selects `agent_map[workflow_sequence[counter % len(workflow_sequence)]]`,
increments the counter and sets `_has_selected`.  The `agents` and
`messages` parameters are received but not used by the body.  Python
raises `ZeroDivisionError` on an empty sequence and `KeyError` on a
missing map entry; both surface as `.error`. -/
def FixedWorkflowStrategy.next (am : String → Option Agent)
    (st : FixedWorkflowState) (agents : List Agent) (messages : List Turn) :
    Except String (Agent × FixedWorkflowState) :=
  if h : st.workflow_sequence.length = 0 then
    .error "ZeroDivisionError: integer division or modulo by zero"
  else
    match am (st.workflow_sequence.get
        ⟨st.counter % st.workflow_sequence.length, Nat.mod_lt _ (Nat.pos_of_ne_zero h)⟩) with
    | none => .error "KeyError"
    | some a =>
      .ok (a, { st with counter := st.counter + 1, has_selected := true })

/-- A fixed-workflow chat as assembled by `create_fixed_workflow_chat`
(`collaboration.py` lines 80–89): the agents, the strategy state, and
the termination cap. -/
structure FixedChat where
  agents : List Agent
  strategy : FixedWorkflowState
  max_iterations : Nat

/-- `create_fixed_workflow_chat` (`collaboration.py` lines 43–89): builds
the name map, verifies every workflow name is present (raising
`ValueError` at the first absent one), defaults `max_iterations` to the
workflow length when `None`, and returns the assembled chat. -/
def create_fixed_workflow_chat (agents : List Agent)
    (workflow_sequence : List String) (max_iterations : Option Nat) :
    Except String FixedChat :=
  match workflow_sequence.find? (fun n => (agent_map agents n).isNone) with
  | some name =>
    .error ("Agent '" ++ name ++ "' in workflow not found in provided agents")
  | none =>
    .ok { agents := agents
          strategy := FixedWorkflowState.init workflow_sequence
          max_iterations :=
            match max_iterations with
            | none => workflow_sequence.length
            | some m => m }

/-- Modelled from the spec: the turn appended for one agent invocation
(§4.4) — on success the reply text, on failure a human-readable error
message, attributed to the agent's name either way; the sequence number
is assigned at append time as the transcript's current length. -/
def invokeTurn (a : Agent) (n : String) (t : List Turn) : Turn :=
  match a.invoke t with
  | .ok r => ⟨n, r, t.length⟩
  | .error e => ⟨n, "Error invoking agent " ++ n ++ ": " ++ e, t.length⟩

/-- Modelled from the spec: the Orchestrator run loop (§4.4) under the
default termination strategy (hard iteration cap, §4.3).  `fuel` is
`max_iterations - iteration_count`; it reaching zero is exactly
`is_done` becoming true, and it is re-examined before every individual
invocation so a mid-batch cap is honored.  `pending` is the rest of the
batch returned by the last selection call.  A selection failure, an
empty selection, and an unknown selected name are the fatal
`SelectionError`s; an invocation failure is recorded as a turn and the
loop continues. -/
def orchLoop {σ : Type} (lookup : String → Option Agent)
    (select : σ → List Turn → Except String (List String × σ)) :
    Nat → σ → List String → List Turn → Except String (List Turn × σ)
  | 0, s, _, t => .ok (t, s)
  | fuel + 1, s, [], t =>
    match select s t with
    | .error e => .error e
    | .ok ([], _) => .error "SelectionError: strategy produced no names"
    | .ok (n :: ns, s') =>
      match lookup n with
      | none => .error ("SelectionError: unknown agent " ++ n)
      | some a => orchLoop lookup select fuel s' ns (t ++ [invokeTurn a n t])
  | fuel + 1, s, n :: ns, t =>
    match lookup n with
    | none => .error ("SelectionError: unknown agent " ++ n)
    | some a => orchLoop lookup select fuel s ns (t ++ [invokeTurn a n t])

/-- Modelled from the spec: `run` (§4.4) — append the initial message as
a `"user"` turn with sequence 0, then drive the loop to the iteration
cap; returns the transcript together with the final strategy state. -/
def run {σ : Type} (registry : List Agent)
    (select : σ → List Turn → Except String (List String × σ))
    (s0 : σ) (max_iterations : Nat) (initial : String) :
    Except String (List Turn × σ) :=
  orchLoop (registryLookup registry) select max_iterations s0 []
    [⟨"user", initial, 0⟩]

/-- The orchestrator-facing view of the fixed-workflow strategy: one
selection call returns the one selected agent's name
(via `FixedWorkflowStrategy.next` from the source). -/
def fixedSelect (am : String → Option Agent) (registry : List Agent)
    (st : FixedWorkflowState) (t : List Turn) :
    Except String (List String × FixedWorkflowState) :=
  match FixedWorkflowStrategy.next am st registry t with
  | .error e => .error e
  | .ok (a, st') => .ok ([a.name], st')

/-- Running a chat built by `create_fixed_workflow_chat`: the modelled
orchestrator loop driven by the source's fixed-workflow strategy, with
the chat's agents and iteration cap. -/
def runFixedChat (c : FixedChat) (msg : String) : Except String (List Turn) :=
  (run c.agents (fixedSelect (agent_map c.agents) c.agents) c.strategy
    c.max_iterations msg).map Prod.fst

/-- Modelled from the spec: the Round-Robin strategy (§4.2) — cycles
through the registry's agents in registration order, one per
invocation, wrapping at the end; state is a single index counter.
Fails with a `SelectionError` when no agents are registered. -/
def roundRobinSelect (registry : List Agent) (idx : Nat) (t : List Turn) :
    Except String (List String × Nat) :=
  if h : registry.length = 0 then
    .error "SelectionError: no agents registered"
  else
    .ok ([(registry.get ⟨idx % registry.length, Nat.mod_lt _ (Nat.pos_of_ne_zero h)⟩).name],
      idx + 1)

/-- A throwaway default agent, used only as the `getD` fallback. -/
def deadAgent : Agent := ⟨"", fun _ => .error "unreachable"⟩

/-- The names produced by `m` successive round-robin selections
starting at index `idx`. -/
def rrNames (registry : List Agent) : Nat → Nat → List String
  | _, 0 => []
  | idx, m + 1 =>
    (registry.getD (idx % registry.length) deadAgent).name ::
      rrNames registry (idx + 1) m

/-- Modelled from the spec: the state of the Dynamic (Lead-Selection)
strategy (§4.2) — the fixed internal plan once computed, the wraparound
position counter, and (for auditing the single-call guarantee) the log
of transcripts the external decision function has been invoked on. -/
structure DynState where
  plan : Option (List String)
  counter : Nat
  calls : List (List Turn)
deriving Repr

/-- The initial dynamic-strategy state: no plan yet, no external calls. -/
def DynState.init : DynState := ⟨none, 0, []⟩

/-- Whitespace, for trimming decision-text entries. -/
def isWS (c : Char) : Bool := c = ' ' || c = '\t' || c = '\n' || c = '\r'

/-- Split a character sequence at every comma; the empty sequence yields
one empty entry, as Python's `"".split(",")` does. -/
def splitCommas : List Char → List (List Char)
  | [] => [[]]
  | c :: rest =>
    let r := splitCommas rest
    if c = ',' then [] :: r
    else (c :: r.headD []) :: r.tail

/-- Strip leading and trailing whitespace from a character sequence. -/
def trimChars (cs : List Char) : List Char :=
  ((cs.dropWhile isWS).reverse.dropWhile isWS).reverse

/-- The decision text's comma-separated entries, each trimmed, kept only
when they name a registered agent. -/
def validEntries (registry : List Agent) (resp : String) : List String :=
  ((splitCommas resp.data).map (fun cs => String.mk (trimChars cs))).filter
    (fun e => registry.any (fun a => a.name == e))

/-- Modelled from the spec: the parsing policy of the Dynamic strategy
(§4.2) — split the decision text on commas, trim whitespace per entry,
silently drop entries matching no registered agent name, and fall back
to the full registry in registration order when nothing remains. -/
def parseDecision (registry : List Agent) (resp : String) : List String :=
  if (validEntries registry resp).isEmpty then
    registry.map (fun a => a.name)
  else
    validEntries registry resp

/-- Modelled from the spec: the Dynamic (Lead-Selection) strategy
(§4.2).  On the first invocation it calls the external decision
function on the transcript so far (logging the call), parses the reply
into the plan and returns the whole plan as one batch, leaving the
counter at the plan's length; every later invocation advances through
the stored plan with wraparound, exactly like Fixed-Sequence, with no
external call. -/
def dynamicSelect (registry : List Agent) (decisionFn : List Turn → String) :
    DynState → List Turn → Except String (List String × DynState)
  | ⟨none, _, log⟩, t =>
    let plan := parseDecision registry (decisionFn t)
    .ok (plan, ⟨some plan, plan.length, log ++ [t]⟩)
  | ⟨some plan, c, log⟩, _ =>
    if h : plan.length = 0 then
      .error "SelectionError: empty plan"
    else
      .ok ([plan.get ⟨c % plan.length, Nat.mod_lt _ (Nat.pos_of_ne_zero h)⟩],
        ⟨some plan, c + 1, log⟩)

/-- A stub agent that always replies successfully with a fixed text. -/
def stubAgent (n : String) (reply : String) : Agent :=
  ⟨n, fun _ => .ok reply⟩

/-- A stub agent whose invocation always raises. -/
def failAgent (n : String) (msg : String) : Agent :=
  ⟨n, fun _ => .error msg⟩

/-- Three well-behaved demo agents named A, B, C. -/
def demoABC : List Agent :=
  [stubAgent "A" "alpha", stubAgent "B" "beta", stubAgent "C" "gamma"]

/-- Two well-behaved demo agents named X, Y. -/
def demoXY : List Agent :=
  [stubAgent "X" "ex", stubAgent "Y" "why"]

/-- The speakers of a transcript, in order. -/
def speakers (t : List Turn) : List String := t.map (fun u => u.speaker)

/-- The result of the `k`-th call (counted from 0) of
`FixedWorkflowStrategy.next`, starting from state `st`; the `agents`
and `messages` arguments are held fixed across calls (the body ignores
them — see the message-independence theorem). -/
def callsFrom (am : String → Option Agent) (registry : List Agent)
    (messages : List Turn) : FixedWorkflowState → Nat →
    Except String (Agent × FixedWorkflowState)
  | st, 0 => FixedWorkflowStrategy.next am st registry messages
  | st, k + 1 =>
    match FixedWorkflowStrategy.next am st registry messages with
    | .error e => .error e
    | .ok (_, st') => callsFrom am registry messages st' k

/-- The transcript invariant: the turn at position `i` carries sequence
number `i`. -/
def SeqOk (t : List Turn) : Prop :=
  ∀ (i : Nat) (h : i < t.length), (t.get ⟨i, h⟩).sequence = i

/-- A selection function is good for a lookup when it always succeeds
with a non-empty batch of registered names (the spec's common contract
for Selection Strategies, §4.2). -/
def GoodSelect {σ : Type} (lookup : String → Option Agent)
    (select : σ → List Turn → Except String (List String × σ)) : Prop :=
  ∀ s t, ∃ n ns s', select s t = .ok (n :: ns, s') ∧
    ∀ m ∈ n :: ns, (lookup m).isSome

/-! ### Helper lemmas -/

/-- The registry map misses a name exactly when no provided agent bears
that name. -/
theorem agent_map_eq_none_iff (agents : List Agent) (n : String) :
    agent_map agents n = none ↔ n ∉ agents.map (fun a => a.name) := by
  unfold agent_map
  rw [List.getLast?_eq_none, List.filter_eq_nil]
  simp [List.mem_map]

/-- On a nonempty workflow, `FixedWorkflowStrategy.next` is the map
lookup at the counter's wraparound index. -/
theorem next_eq (am : String → Option Agent) (wf : List String) (c : Nat)
    (b : Bool) (reg : List Agent) (ms : List Turn) (hwf : wf.length ≠ 0) :
    FixedWorkflowStrategy.next am ⟨wf, c, b⟩ reg ms =
      match am (wf.getD (c % wf.length) "") with
      | none => .error "KeyError"
      | some a => .ok (a, ⟨wf, c + 1, true⟩) := by
  unfold FixedWorkflowStrategy.next
  rw [dif_neg hwf]
  rw [List.getD_eq_get wf "" (Nat.mod_lt _ (Nat.pos_of_ne_zero hwf))]

/-- From any counter value `c`, the `k`-th subsequent call of the
fixed-workflow strategy selects the map entry at index
`(c + k) % len` and leaves the counter at `c + k + 1`, provided every
workflow name is in the map. -/
theorem callsFrom_ok (am : String → Option Agent) (reg : List Agent)
    (ms : List Turn) (wf : List String) (hwf : wf ≠ [])
    (ham : ∀ n ∈ wf, (am n).isSome) :
    ∀ (k c : Nat) (b : Bool) (a : Agent),
      am (wf.getD ((c + k) % wf.length) "") = some a →
      callsFrom am reg ms ⟨wf, c, b⟩ k = .ok (a, ⟨wf, c + k + 1, true⟩) := by
  have hlen : wf.length ≠ 0 := by simpa using hwf
  intro k
  induction k with
  | zero =>
    intro c b a ha
    rw [Nat.add_zero] at ha
    unfold callsFrom
    rw [next_eq am wf c b reg ms hlen, ha]
  | succ k ih =>
    intro c b a ha
    have hmem : wf.getD (c % wf.length) "" ∈ wf := by
      rw [List.getD_eq_get wf "" (Nat.mod_lt _ (Nat.pos_of_ne_zero hlen))]
      exact List.get_mem _ _ _
    obtain ⟨a0, ha0⟩ := Option.isSome_iff_exists.mp (ham _ hmem)
    unfold callsFrom
    rw [next_eq am wf c b reg ms hlen, ha0]
    show callsFrom am reg ms ⟨wf, c + 1, true⟩ k =
      Except.ok (a, ⟨wf, c + (k + 1) + 1, true⟩)
    rw [ih (c + 1) true a (by
      have h1 : c + 1 + k = c + (k + 1) := by omega
      rw [h1]
      exact ha)]
    have h2 : c + 1 + k + 1 = c + (k + 1) + 1 := by omega
    rw [h2]

/-! ### Claims -/

/-- C9: the fixed-workflow strategy's selection is message-independent —
two calls of `FixedWorkflowStrategy.next` with equal workflow and
counter return identical results whatever the `agents` and `messages`
arguments (and whatever the `_has_selected` flag); and each successful
call increments the counter by exactly one, keeping the workflow
sequence unchanged. -/
theorem fixed_next_message_independent :
    (∀ (am : String → Option Agent) (wf : List String) (c : Nat)
      (b1 b2 : Bool) (reg1 reg2 : List Agent) (ms1 ms2 : List Turn),
      FixedWorkflowStrategy.next am ⟨wf, c, b1⟩ reg1 ms1 =
        FixedWorkflowStrategy.next am ⟨wf, c, b2⟩ reg2 ms2) ∧
    (∀ (am : String → Option Agent) (st : FixedWorkflowState)
      (reg : List Agent) (ms : List Turn) (a : Agent)
      (st' : FixedWorkflowState),
      FixedWorkflowStrategy.next am st reg ms = .ok (a, st') →
      st'.counter = st.counter + 1 ∧
        st'.workflow_sequence = st.workflow_sequence) := by
  constructor
  · intro am wf c b1 b2 reg1 reg2 ms1 ms2
    rfl
  · intro am st reg ms a st' h
    unfold FixedWorkflowStrategy.next at h
    split at h
    · exact absurd h (by simp)
    · split at h
      · exact absurd h (by simp)
      · injection h with h1
        injection h1 with _ h2
        subst h2
        exact ⟨rfl, rfl⟩

/-- C9 witness: a concrete successful call increments the counter. -/
theorem fixed_next_message_independent_witness :
    (FixedWorkflowStrategy.next (agent_map demoABC) ⟨["A"], 0, false⟩
        demoABC [] = .ok (stubAgent "A" "alpha", ⟨["A"], 1, true⟩)) ∧
    ((⟨["A"], 1, true⟩ : FixedWorkflowState).counter =
        (⟨["A"], 0, false⟩ : FixedWorkflowState).counter + 1 ∧
      (⟨["A"], 1, true⟩ : FixedWorkflowState).workflow_sequence =
        (⟨["A"], 0, false⟩ : FixedWorkflowState).workflow_sequence) :=
  ⟨rfl, fixed_next_message_independent.2 (agent_map demoABC)
    ⟨["A"], 0, false⟩ demoABC [] (stubAgent "A" "alpha") ⟨["A"], 1, true⟩ rfl⟩

/-- C1: fixed-sequence fidelity — the chat over workflow
`["A","B","C"]` with `max_iterations = 5` produces the speaker sequence
`A,B,C,A,B` after the initial user turn; and in general, the `k`-th
selection call (counted from 0) of the fixed-workflow strategy returns
the registered agent named `workflow_sequence[k % len]`, cycling with
wraparound. -/
theorem fixed_sequence_fidelity :
    (((create_fixed_workflow_chat demoABC ["A", "B", "C"] (some 5)).bind
        (fun c => runFixedChat c "Hello")).map
          (fun t => (speakers t).drop 1) =
      .ok ["A", "B", "C", "A", "B"]) ∧
    (∀ (am : String → Option Agent) (reg : List Agent) (ms : List Turn)
      (wf : List String) (k : Nat) (a : Agent),
      wf ≠ [] → (∀ n ∈ wf, (am n).isSome) →
      am (wf.getD (k % wf.length) "") = some a →
      callsFrom am reg ms (FixedWorkflowState.init wf) k =
        .ok (a, ⟨wf, k + 1, true⟩)) := by
  constructor
  · rfl
  · intro am reg ms wf k a hwf ham ha
    have := callsFrom_ok am reg ms wf hwf ham k 0 false a
      (by rw [Nat.zero_add]; exact ha)
    rw [FixedWorkflowState.init]
    rw [this]
    rw [Nat.zero_add]

/-- C1 witness: the 4th call (counted from 0) over workflow
`["A","B","C"]` selects the agent named `B = ["A","B","C"][4 % 3]`. -/
theorem fixed_sequence_fidelity_witness :
    callsFrom (agent_map demoABC) demoABC []
        (FixedWorkflowState.init ["A", "B", "C"]) 4 =
      .ok (stubAgent "B" "beta", ⟨["A", "B", "C"], 5, true⟩) :=
  fixed_sequence_fidelity.2 (agent_map demoABC) demoABC [] ["A", "B", "C"]
    4 (stubAgent "B" "beta") (by decide) (by decide) rfl

/-- C6: construction of a fixed-workflow chat fails exactly when some
workflow name is absent from the provided agents' names; when every
workflow name is registered, construction succeeds and the chat carries
the provided agents and the initial fixed-workflow strategy state. -/
theorem create_fixed_workflow_validation :
    (∀ (agents : List Agent) (wf : List String) (mi : Option Nat),
      (∃ e, create_fixed_workflow_chat agents wf mi = .error e) ↔
        ∃ n ∈ wf, n ∉ agents.map (fun a => a.name)) ∧
    (∀ (agents : List Agent) (wf : List String) (mi : Option Nat),
      (∀ n ∈ wf, n ∈ agents.map (fun a => a.name)) →
      ∃ m, create_fixed_workflow_chat agents wf mi =
        .ok ⟨agents, FixedWorkflowState.init wf, m⟩) := by
  constructor
  · intro agents wf mi
    constructor
    · rintro ⟨e, he⟩
      unfold create_fixed_workflow_chat at he
      cases hf : wf.find? (fun n => (agent_map agents n).isNone) with
      | none => rw [hf] at he; exact absurd he (by simp)
      | some x =>
        have hx := List.find?_some hf
        have hmem := List.mem_of_find?_eq_some hf
        refine ⟨x, hmem, ?_⟩
        rw [← agent_map_eq_none_iff]
        simpa using hx
    · rintro ⟨n, hn, hnames⟩
      have hsome : (wf.find? (fun n => (agent_map agents n).isNone)).isSome := by
        rw [List.find?_isSome]
        refine ⟨n, hn, ?_⟩
        simp [Option.isNone_iff_eq_none, agent_map_eq_none_iff, hnames]
      obtain ⟨x, hx⟩ := Option.isSome_iff_exists.mp hsome
      refine ⟨"Agent '" ++ x ++ "' in workflow not found in provided agents", ?_⟩
      unfold create_fixed_workflow_chat
      rw [hx]
  · intro agents wf mi h
    have hf : wf.find? (fun n => (agent_map agents n).isNone) = none := by
      rw [List.find?_eq_none]
      intro x hx
      simp only [Option.isNone_iff_eq_none, Bool.not_eq_true]
      simp [agent_map_eq_none_iff, h x hx]
    refine ⟨(match mi with | none => wf.length | some m => m), ?_⟩
    unfold create_fixed_workflow_chat
    rw [hf]

/-- C6 witness: a fully registered workflow constructs successfully. -/
theorem create_fixed_workflow_validation_witness :
    ∃ m, create_fixed_workflow_chat demoABC ["A", "B"] none =
      .ok ⟨demoABC, FixedWorkflowState.init ["A", "B"], m⟩ :=
  create_fixed_workflow_validation.2 demoABC ["A", "B"] none (by decide)

/-- C10: omitting `max_iterations` caps the chat at the workflow's
length; concretely, a default run over `["A","B","C"]` performs exactly
one full pass through the workflow and terminates. -/
theorem default_cap_eq_workflow_length :
    (∀ (agents : List Agent) (wf : List String) (c : FixedChat),
      create_fixed_workflow_chat agents wf none = .ok c →
      c.max_iterations = wf.length) ∧
    (((create_fixed_workflow_chat demoABC ["A", "B", "C"] none).bind
        (fun c => runFixedChat c "Hello")).map speakers =
      .ok ["user", "A", "B", "C"]) := by
  constructor
  · intro agents wf c h
    unfold create_fixed_workflow_chat at h
    split at h
    · exact absurd h (by simp)
    · injection h with h1
      rw [← h1]
  · rfl

/-- C10 witness: the default cap at a concrete chat equals the workflow
length. -/
theorem default_cap_eq_workflow_length_witness :
    (⟨demoXY, FixedWorkflowState.init ["X", "Y"], 2⟩ : FixedChat).max_iterations =
      (["X", "Y"] : List String).length :=
  default_cap_eq_workflow_length.1 demoXY ["X", "Y"]
    ⟨demoXY, FixedWorkflowState.init ["X", "Y"], 2⟩ rfl

/-- Every turn appended by `invokeTurn` carries the sequence number
assigned at append time: the transcript's length. -/
theorem invokeTurn_sequence (a : Agent) (n : String) (t : List Turn) :
    (invokeTurn a n t).sequence = t.length := by
  unfold invokeTurn
  split <;> rfl

/-- Every turn appended by `invokeTurn` is attributed to the selected
agent's name. -/
theorem invokeTurn_speaker (a : Agent) (n : String) (t : List Turn) :
    (invokeTurn a n t).speaker = n := by
  unfold invokeTurn
  split <;> rfl

/-- The loop grows the transcript by at most `fuel` turns. -/
theorem orchLoop_length_le {σ : Type} (lookup : String → Option Agent)
    (select : σ → List Turn → Except String (List String × σ)) :
    ∀ (fuel : Nat) (s : σ) (pending : List String) (t t' : List Turn) (s' : σ),
      orchLoop lookup select fuel s pending t = .ok (t', s') →
      t'.length ≤ t.length + fuel := by
  intro fuel
  induction fuel with
  | zero =>
    intro s pending t t' s' h
    unfold orchLoop at h
    simp only [Except.ok.injEq, Prod.mk.injEq] at h
    obtain ⟨rfl, rfl⟩ := h
    omega
  | succ fuel ih =>
    intro s pending t t' s' h
    cases pending with
    | nil =>
      unfold orchLoop at h
      split at h
      · exact absurd h (by simp)
      · exact absurd h (by simp)
      · split at h
        · exact absurd h (by simp)
        · have := ih _ _ _ _ _ h
          simp only [List.length_append, List.length_cons, List.length_nil] at this
          omega
    | cons n ns =>
      unfold orchLoop at h
      split at h
      · exact absurd h (by simp)
      · have := ih _ _ _ _ _ h
        simp only [List.length_append, List.length_cons, List.length_nil] at this
        omega

/-- The loop only appends: its input transcript is an unchanged initial
segment of its output — once a turn is in the transcript, its fields
never change for the rest of the run. -/
theorem orchLoop_extends {σ : Type} (lookup : String → Option Agent)
    (select : σ → List Turn → Except String (List String × σ)) :
    ∀ (fuel : Nat) (s : σ) (pending : List String) (t t' : List Turn) (s' : σ),
      orchLoop lookup select fuel s pending t = .ok (t', s') →
      ∃ rest, t' = t ++ rest := by
  intro fuel
  induction fuel with
  | zero =>
    intro s pending t t' s' h
    unfold orchLoop at h
    simp only [Except.ok.injEq, Prod.mk.injEq] at h
    obtain ⟨rfl, rfl⟩ := h
    exact ⟨[], by simp⟩
  | succ fuel ih =>
    intro s pending t t' s' h
    cases pending with
    | nil =>
      unfold orchLoop at h
      split at h
      · exact absurd h (by simp)
      · exact absurd h (by simp)
      · split at h
        · exact absurd h (by simp)
        · obtain ⟨rest, hrest⟩ := ih _ _ _ _ _ h
          exact ⟨_ :: rest, by simpa using hrest⟩
    | cons n ns =>
      unfold orchLoop at h
      split at h
      · exact absurd h (by simp)
      · obtain ⟨rest, hrest⟩ := ih _ _ _ _ _ h
        exact ⟨_ :: rest, by simpa using hrest⟩

/-- Appending one turn whose sequence is the current length preserves
the transcript invariant. -/
theorem SeqOk.push {t : List Turn} {u : Turn} (ht : SeqOk t)
    (hu : u.sequence = t.length) : SeqOk (t ++ [u]) := by
  intro i h
  simp only [List.get_eq_getElem]
  rcases Nat.lt_or_ge i t.length with hi | hi
  · rw [List.getElem_append_left hi]
    have := ht i hi
    simpa using this
  · have hieq : i = t.length := by
      simp only [List.length_append, List.length_cons, List.length_nil] at h
      omega
    subst hieq
    rw [List.getElem_concat_length]
    · exact hu
    · rfl

/-- The loop preserves the transcript invariant. -/
theorem orchLoop_seqOk {σ : Type} (lookup : String → Option Agent)
    (select : σ → List Turn → Except String (List String × σ)) :
    ∀ (fuel : Nat) (s : σ) (pending : List String) (t t' : List Turn) (s' : σ),
      SeqOk t →
      orchLoop lookup select fuel s pending t = .ok (t', s') →
      SeqOk t' := by
  intro fuel
  induction fuel with
  | zero =>
    intro s pending t t' s' ht h
    unfold orchLoop at h
    simp only [Except.ok.injEq, Prod.mk.injEq] at h
    obtain ⟨rfl, rfl⟩ := h
    exact ht
  | succ fuel ih =>
    intro s pending t t' s' ht h
    cases pending with
    | nil =>
      unfold orchLoop at h
      split at h
      · exact absurd h (by simp)
      · exact absurd h (by simp)
      · split at h
        · exact absurd h (by simp)
        · exact ih _ _ _ _ _ (ht.push (invokeTurn_sequence _ _ _)) h
    | cons n ns =>
      unfold orchLoop at h
      split at h
      · exact absurd h (by simp)
      · exact ih _ _ _ _ _ (ht.push (invokeTurn_sequence _ _ _)) h

/-- A failing invocation yields the attributed error turn. -/
theorem invokeTurn_error (a : Agent) (n : String) (t : List Turn) (e : String)
    (he : a.invoke t = .error e) :
    invokeTurn a n t = ⟨n, "Error invoking agent " ++ n ++ ": " ++ e, t.length⟩ := by
  unfold invokeTurn
  rw [he]

/-- One loop step with a pending batch: invoke the head agent, append
its turn, continue with the tail. -/
theorem orchLoop_cons_step {σ : Type} (lookup : String → Option Agent)
    (select : σ → List Turn → Except String (List String × σ))
    (fuel : Nat) (s : σ) (n : String) (ns : List String) (t : List Turn)
    (a : Agent) (ha : lookup n = some a) :
    orchLoop lookup select (fuel + 1) s (n :: ns) t =
      orchLoop lookup select fuel s ns (t ++ [invokeTurn a n t]) := by
  conv_lhs => unfold orchLoop
  rw [ha]

/-- One loop step with an exhausted batch: consult selection, invoke the
first selected agent, continue with the rest of the new batch. -/
theorem orchLoop_select_step {σ : Type} (lookup : String → Option Agent)
    (select : σ → List Turn → Except String (List String × σ))
    (fuel : Nat) (s s' : σ) (n : String) (ns : List String) (t : List Turn)
    (a : Agent) (hsel : select s t = .ok (n :: ns, s'))
    (ha : lookup n = some a) :
    orchLoop lookup select (fuel + 1) s [] t =
      orchLoop lookup select fuel s' ns (t ++ [invokeTurn a n t]) := by
  conv_lhs => unfold orchLoop
  simp only [hsel]
  rw [ha]

/-- Under a good selection function the loop always returns a
transcript: invocation failures never surface as loop failures. -/
theorem orchLoop_total {σ : Type} (lookup : String → Option Agent)
    (select : σ → List Turn → Except String (List String × σ))
    (good : GoodSelect lookup select) :
    ∀ (fuel : Nat) (s : σ) (pending : List String) (t : List Turn),
      (∀ m ∈ pending, (lookup m).isSome) →
      ∃ t' s', orchLoop lookup select fuel s pending t = .ok (t', s') := by
  intro fuel
  induction fuel with
  | zero =>
    intro s pending t _
    exact ⟨t, s, rfl⟩
  | succ fuel ih =>
    intro s pending t hpend
    cases pending with
    | nil =>
      obtain ⟨n, ns, s', hsel, hreg⟩ := good s t
      obtain ⟨a, ha⟩ := Option.isSome_iff_exists.mp (hreg n (by simp))
      rw [orchLoop_select_step lookup select fuel s s' n ns t a hsel ha]
      exact ih s' ns _ (fun m hm => hreg m (by simp [hm]))
    | cons n ns =>
      obtain ⟨a, ha⟩ := Option.isSome_iff_exists.mp (hpend n (by simp))
      rw [orchLoop_cons_step lookup select fuel s n ns t a ha]
      exact ih s ns _ (fun m hm => hpend m (by simp [hm]))

/-- C2: invocation failure isolation — a failing agent invocation is
recorded as a turn attributed to that agent's name with a
human-readable error message, and the loop simply continues with the
rest of the scheduled batch; and whenever the selection function obeys
its contract, `run` returns a complete transcript rather than an error,
so only selection (and construction-time) failures can surface to the
caller. -/
theorem invocation_failure_isolation :
    (∀ (σ : Type) (lookup : String → Option Agent)
      (select : σ → List Turn → Except String (List String × σ))
      (fuel : Nat) (s : σ) (n : String) (ns : List String) (t : List Turn)
      (a : Agent) (e : String),
      lookup n = some a → a.invoke t = .error e →
      orchLoop lookup select (fuel + 1) s (n :: ns) t =
        orchLoop lookup select fuel s ns
          (t ++ [⟨n, "Error invoking agent " ++ n ++ ": " ++ e, t.length⟩])) ∧
    (∀ (σ : Type) (reg : List Agent)
      (select : σ → List Turn → Except String (List String × σ))
      (s0 : σ) (mi : Nat) (msg : String),
      GoodSelect (registryLookup reg) select →
      ∃ t' s', run reg select s0 mi msg = .ok (t', s')) := by
  constructor
  · intro σ lookup select fuel s n ns t a e hl he
    rw [orchLoop_cons_step lookup select fuel s n ns t a hl,
      invokeTurn_error a n t e he]
  · intro σ reg select s0 mi msg good
    exact orchLoop_total (registryLookup reg) select good mi s0 [] _
      (fun m hm => absurd hm (by simp))

/-- C3: the cap is never overrun — any returned transcript holds at
most `max_iterations` agent turns beyond the initial user turn; and
concretely, `max_iterations = 1` against a dynamic plan `["X","Y"]`
produces exactly one agent turn, by `X`. -/
theorem mid_batch_cap :
    (∀ (σ : Type) (reg : List Agent)
      (select : σ → List Turn → Except String (List String × σ))
      (s0 : σ) (mi : Nat) (msg : String) (t' : List Turn) (s' : σ),
      run reg select s0 mi msg = .ok (t', s') → t'.length ≤ mi + 1) ∧
    ((run demoXY (dynamicSelect demoXY (fun _ => "X, Y")) DynState.init 1
        "go").map (fun p => speakers p.1) = .ok ["user", "X"]) := by
  constructor
  · intro σ reg select s0 mi msg t' s' h
    have := orchLoop_length_le (registryLookup reg) select mi s0 [] _ t' s' h
    simpa [Nat.add_comm] using this
  · rfl

/-- C3 witness: the concrete mid-batch run stays within its cap. -/
theorem mid_batch_cap_witness :
    ([⟨"user", "go", 0⟩, ⟨"X", "ex", 1⟩] : List Turn).length ≤ 1 + 1 :=
  mid_batch_cap.1 DynState (demoXY)
    (dynamicSelect demoXY (fun _ => "X, Y")) DynState.init 1 "go"
    [⟨"user", "go", 0⟩, ⟨"X", "ex", 1⟩]
    ⟨some ["X", "Y"], 2, [[⟨"user", "go", 0⟩]]⟩ rfl

/-- C8: transcript ordering invariant — in any returned transcript the
turn at position `i` carries sequence number `i` (so sequence numbers
are unique, strictly increasing, match insertion order, and are
assigned by the transcript at append time); and the loop only ever
appends, so a turn, once appended, is unchanged in the final
transcript. -/
theorem transcript_ordering :
    (∀ (σ : Type) (reg : List Agent)
      (select : σ → List Turn → Except String (List String × σ))
      (s0 : σ) (mi : Nat) (msg : String) (t' : List Turn) (s' : σ),
      run reg select s0 mi msg = .ok (t', s') →
      SeqOk t' ∧ List.Pairwise (fun u v => u.sequence < v.sequence) t') ∧
    (∀ (σ : Type) (lookup : String → Option Agent)
      (select : σ → List Turn → Except String (List String × σ))
      (fuel : Nat) (s : σ) (pending : List String) (t0 t1 : List Turn)
      (s1 : σ),
      orchLoop lookup select fuel s pending t0 = .ok (t1, s1) →
      ∃ rest, t1 = t0 ++ rest) := by
  constructor
  · intro σ reg select s0 mi msg t' s' h
    have h0 : SeqOk [(⟨"user", msg, 0⟩ : Turn)] := by
      intro i hi
      have hieq : i = 0 := by simpa using hi
      subst hieq
      rfl
    have hseq : SeqOk t' :=
      orchLoop_seqOk (registryLookup reg) select mi s0 [] _ t' s' h0 h
    refine ⟨hseq, ?_⟩
    rw [List.pairwise_iff_get]
    intro i j hij
    rw [hseq i.val i.isLt, hseq j.val j.isLt]
    exact hij
  · intro σ lookup select fuel s pending t0 t1 s1 h
    exact orchLoop_extends lookup select fuel s pending t0 t1 s1 h

/-- C8 witness: the invariant at a concrete dynamic run. -/
theorem transcript_ordering_witness :
    (SeqOk [⟨"user", "go", 0⟩, ⟨"X", "ex", 1⟩] ∧
      List.Pairwise (fun u v => u.sequence < v.sequence)
        [(⟨"user", "go", 0⟩ : Turn), ⟨"X", "ex", 1⟩]) ∧
    (∃ rest, ([⟨"user", "go", 0⟩, ⟨"X", "ex", 1⟩] : List Turn) =
      [⟨"user", "go", 0⟩] ++ rest) :=
  ⟨transcript_ordering.1 DynState demoXY
      (dynamicSelect demoXY (fun _ => "X")) DynState.init 1 "go"
      [⟨"user", "go", 0⟩, ⟨"X", "ex", 1⟩]
      ⟨some ["X"], 1, [[⟨"user", "go", 0⟩]]⟩ rfl,
    transcript_ordering.2 DynState (registryLookup demoXY)
      (dynamicSelect demoXY (fun _ => "X")) 1 ⟨some ["X"], 1, [[⟨"user", "go", 0⟩]]⟩
      [] [⟨"user", "go", 0⟩] [⟨"user", "go", 0⟩, ⟨"X", "ex", 1⟩]
      ⟨some ["X"], 2, [[⟨"user", "go", 0⟩]]⟩ rfl⟩

/-- C2 witness: a raising stub produces the attributed error turn and
the loop goes on; a well-behaved selection yields a completed run. -/
theorem invocation_failure_isolation_witness :
    (orchLoop (registryLookup [failAgent "F" "boom"])
        (fun (s : Nat) (_ : List Turn) => .ok (["F"], s)) (0 + 1) 0 ["F"]
        [⟨"user", "go", 0⟩] =
      orchLoop (registryLookup [failAgent "F" "boom"])
        (fun (s : Nat) (_ : List Turn) => .ok (["F"], s)) 0 0 []
        ([⟨"user", "go", 0⟩] ++
          [⟨"F", "Error invoking agent " ++ "F" ++ ": " ++ "boom",
            ([(⟨"user", "go", 0⟩ : Turn)] : List Turn).length⟩])) ∧
    (∃ t' s', run [stubAgent "G" "ok"]
        (fun (s : Nat) (_ : List Turn) => .ok (["G"], s)) 0 3 "go" =
      .ok (t', s')) :=
  ⟨invocation_failure_isolation.1 Nat (registryLookup [failAgent "F" "boom"])
      (fun s _ => .ok (["G"], s)) 0 0 "F" [] [⟨"user", "go", 0⟩]
      (failAgent "F" "boom") "boom" rfl rfl,
    invocation_failure_isolation.2 Nat [stubAgent "G" "ok"]
      (fun s _ => .ok (["G"], s)) 0 3 "go"
      (fun s t => ⟨"G", [], s, rfl, by decide⟩)⟩

/-- A name borne by some registered agent is found by the registry
lookup. -/
theorem registryLookup_isSome_of_name {reg : List Agent} {n : String}
    (h : ∃ a ∈ reg, a.name = n) : (registryLookup reg n).isSome := by
  unfold registryLookup
  rw [List.find?_isSome]
  obtain ⟨a, ha, hn⟩ := h
  exact ⟨a, ha, by simp [hn]⟩

/-- Every name in a parsed plan is registered. -/
theorem parseDecision_mem_registered (reg : List Agent) (resp : String) :
    ∀ n ∈ parseDecision reg resp, (registryLookup reg n).isSome := by
  intro n hn
  unfold parseDecision at hn
  split at hn
  · apply registryLookup_isSome_of_name
    rw [List.mem_map] at hn
    obtain ⟨a, ha, hname⟩ := hn
    exact ⟨a, ha, hname⟩
  · have hpred := List.of_mem_filter hn
    simp only [List.any_eq_true] at hpred
    obtain ⟨a, ha, hname⟩ := hpred
    exact registryLookup_isSome_of_name ⟨a, ha, by simpa using hname⟩

/-- Over a nonempty registry the parsed plan is never empty: the
fallback guarantees at least one name. -/
theorem parseDecision_ne_nil (reg : List Agent) (resp : String)
    (hreg : reg ≠ []) : parseDecision reg resp ≠ [] := by
  unfold parseDecision
  split
  · simpa using hreg
  · rename_i h
    simpa [List.isEmpty_iff] using h

/-- The Dynamic strategy's first invocation: one external call, logged,
whose parsed result becomes the fixed internal plan, returned whole as
the first batch. -/
theorem dynamicSelect_first (reg : List Agent) (df : List Turn → String)
    (c : Nat) (log : List (List Turn)) (t : List Turn) :
    dynamicSelect reg df ⟨none, c, log⟩ t =
      .ok (parseDecision reg (df t),
        ⟨some (parseDecision reg (df t)), (parseDecision reg (df t)).length,
          log ++ [t]⟩) := rfl

/-- Once a plan is fixed, the loop keeps it and makes no further
external call: the call log is unchanged at exit. -/
theorem orchLoop_dyn_planned (reg : List Agent) (df : List Turn → String) :
    ∀ (fuel : Nat) (p : List String) (c : Nat) (log : List (List Turn))
      (pending : List String) (t : List Turn),
      p ≠ [] → (∀ n ∈ p, (registryLookup reg n).isSome) →
      (∀ n ∈ pending, (registryLookup reg n).isSome) →
      ∃ t' c', orchLoop (registryLookup reg) (dynamicSelect reg df) fuel
          ⟨some p, c, log⟩ pending t = .ok (t', ⟨some p, c', log⟩) := by
  intro fuel
  induction fuel with
  | zero =>
    intro p c log pending t _ _ _
    exact ⟨t, c, rfl⟩
  | succ fuel ih =>
    intro p c log pending t hp hreg hpend
    cases pending with
    | nil =>
      have hlen : p.length ≠ 0 := by simpa using hp
      have hsel : dynamicSelect reg df ⟨some p, c, log⟩ t =
          .ok ([p.get ⟨c % p.length, Nat.mod_lt _ (Nat.pos_of_ne_zero hlen)⟩],
            ⟨some p, c + 1, log⟩) := by
        unfold dynamicSelect
        exact dif_neg hlen
      have hname : p.get ⟨c % p.length, Nat.mod_lt _ (Nat.pos_of_ne_zero hlen)⟩ ∈ p :=
        List.get_mem _ _ _
      obtain ⟨a, ha⟩ := Option.isSome_iff_exists.mp (hreg _ hname)
      rw [orchLoop_select_step (registryLookup reg) (dynamicSelect reg df)
        fuel _ _ _ [] t a hsel ha]
      exact ih p (c + 1) log [] _ hp hreg (by simp)
    | cons n ns =>
      obtain ⟨a, ha⟩ := Option.isSome_iff_exists.mp (hpend n (by simp))
      rw [orchLoop_cons_step (registryLookup reg) (dynamicSelect reg df)
        fuel _ n ns t a ha]
      exact ih p c log ns _ hp hreg (fun m hm => hpend m (by simp [hm]))

/-- The shape of any dynamic run over a nonempty registry: either the
cap is zero and no selection happens (no external call), or the run
completes with exactly one logged external call, made on the initial
one-turn transcript. -/
theorem dynRun_shape (reg : List Agent) (df : List Turn → String)
    (mi : Nat) (msg : String) (hreg : reg ≠ []) :
    (mi = 0 ∧ run reg (dynamicSelect reg df) DynState.init mi msg =
      .ok ([⟨"user", msg, 0⟩], DynState.init)) ∨
    (1 ≤ mi ∧ ∃ t' c' p, run reg (dynamicSelect reg df) DynState.init mi msg =
      .ok (t', ⟨some p, c', [[⟨"user", msg, 0⟩]]⟩)) := by
  cases mi with
  | zero => exact Or.inl ⟨rfl, rfl⟩
  | succ m =>
    refine Or.inr ⟨by omega, ?_⟩
    unfold run
    have hsel := dynamicSelect_first reg df 0 [] [⟨"user", msg, 0⟩]
    cases hplan : parseDecision reg (df [⟨"user", msg, 0⟩]) with
    | nil => exact absurd hplan (parseDecision_ne_nil reg _ hreg)
    | cons n ns =>
      rw [hplan] at hsel
      have hmemreg : ∀ x ∈ n :: ns, (registryLookup reg x).isSome := by
        intro x hx
        apply parseDecision_mem_registered reg (df [⟨"user", msg, 0⟩])
        rw [hplan]
        exact hx
      obtain ⟨a, ha⟩ := Option.isSome_iff_exists.mp (hmemreg n (by simp))
      rw [orchLoop_select_step (registryLookup reg) (dynamicSelect reg df)
        m DynState.init _ n ns [⟨"user", msg, 0⟩] a hsel ha]
      simp only [List.nil_append]
      obtain ⟨t', c', hloop⟩ := orchLoop_dyn_planned reg df m (n :: ns)
        (n :: ns).length [[⟨"user", msg, 0⟩]] ns _ (by simp) hmemreg
        (fun x hx => hmemreg x (by simp [hx]))
      rw [hloop]
      exact ⟨t', c', n :: ns, rfl⟩

/-- C4: dynamic-selection single-call guarantee — a selection made with
a stored plan changes neither plan nor call log and just advances
through the plan with wraparound; the first selection logs exactly one
external call and fixes the parsed plan; and any run of length at least
one over a nonempty registry ends with the decision function having
been invoked exactly once, on the initial one-turn transcript. -/
theorem dynamic_single_call :
    (∀ (reg : List Agent) (df : List Turn → String) (p : List String)
      (c : Nat) (log : List (List Turn)) (t : List Turn) (ns : List String)
      (s' : DynState),
      dynamicSelect reg df ⟨some p, c, log⟩ t = .ok (ns, s') →
      s'.plan = some p ∧ s'.calls = log ∧ s'.counter = c + 1 ∧
        ns = [p.getD (c % p.length) ""]) ∧
    (∀ (reg : List Agent) (df : List Turn → String) (c : Nat)
      (log : List (List Turn)) (t : List Turn),
      dynamicSelect reg df ⟨none, c, log⟩ t =
        .ok (parseDecision reg (df t),
          ⟨some (parseDecision reg (df t)), (parseDecision reg (df t)).length,
            log ++ [t]⟩)) ∧
    (∀ (reg : List Agent) (df : List Turn → String) (mi : Nat) (msg : String),
      reg ≠ [] → 1 ≤ mi →
      ∃ t' c' p, run reg (dynamicSelect reg df) DynState.init mi msg =
        .ok (t', ⟨some p, c', [[⟨"user", msg, 0⟩]]⟩)) := by
  refine ⟨?_, ?_, ?_⟩
  · intro reg df p c log t ns s' h
    by_cases hlen : p.length = 0
    · rw [show dynamicSelect reg df ⟨some p, c, log⟩ t =
          .error "SelectionError: empty plan" from by
        unfold dynamicSelect; exact dif_pos hlen] at h
      exact absurd h (by simp)
    · have hlt : c % p.length < p.length := Nat.mod_lt _ (Nat.pos_of_ne_zero hlen)
      rw [show dynamicSelect reg df ⟨some p, c, log⟩ t =
          .ok ([p.get ⟨c % p.length, hlt⟩], ⟨some p, c + 1, log⟩) from by
        unfold dynamicSelect; exact dif_neg hlen] at h
      simp only [Except.ok.injEq, Prod.mk.injEq] at h
      obtain ⟨hns, hs'⟩ := h
      subst hns
      subst hs'
      refine ⟨rfl, rfl, rfl, ?_⟩
      rw [List.getD_eq_get p "" hlt]
  · intro reg df c log t
    exact dynamicSelect_first reg df c log t
  · intro reg df mi msg hreg hmi
    rcases dynRun_shape reg df mi msg hreg with ⟨h0, _⟩ | ⟨_, h⟩
    · omega
    · exact h

/-- C4 witness: a planned selection at concrete state keeps plan and
log; a concrete two-iteration dynamic run logs exactly one call. -/
theorem dynamic_single_call_witness :
    ((⟨some ["X"], 1, []⟩ : DynState).plan = some ["X"] ∧
      (⟨some ["X"], 1, []⟩ : DynState).calls = ([] : List (List Turn)) ∧
      (⟨some ["X"], 1, []⟩ : DynState).counter = 0 + 1 ∧
      (["X"] : List String) =
        [(["X"] : List String).getD (0 % (["X"] : List String).length) ""]) ∧
    (∃ t' c' p, run demoXY (dynamicSelect demoXY (fun _ => "X, Y"))
        DynState.init 2 "go" = .ok (t', ⟨some p, c', [[⟨"user", "go", 0⟩]]⟩)) :=
  ⟨dynamic_single_call.1 demoXY (fun _ => "X, Y") ["X"] 0 [] [] ["X"]
      ⟨some ["X"], 1, []⟩ rfl,
    dynamic_single_call.2.2 demoXY (fun _ => "X, Y") 2 "go"
      (by simp [demoXY]) (by decide)⟩

/-- C5: malformed-decision fallback — when no trimmed comma-separated
entry of the decision text names a registered agent (in particular for
the empty string), the parsed plan is the full registry in registration
order; and a dynamic run over a nonempty registry never fails,
whatever the decision function returns. -/
theorem malformed_decision_fallback :
    (∀ (reg : List Agent) (resp : String),
      (∀ e ∈ (splitCommas resp.data).map (fun cs => String.mk (trimChars cs)),
        e ∉ reg.map (fun a => a.name)) →
      parseDecision reg resp = reg.map (fun a => a.name)) ∧
    (parseDecision demoXY "" = ["X", "Y"] ∧
      parseDecision demoXY "Nobody, Unknown" = ["X", "Y"]) ∧
    (∀ (reg : List Agent) (df : List Turn → String) (mi : Nat) (msg : String),
      reg ≠ [] →
      ∃ t' s', run reg (dynamicSelect reg df) DynState.init mi msg =
        .ok (t', s')) := by
  refine ⟨?_, ⟨rfl, rfl⟩, ?_⟩
  · intro reg resp h
    have hvalid : validEntries reg resp = [] := by
      unfold validEntries
      rw [List.filter_eq_nil]
      intro e he
      have hnot := h e he
      simp only [List.any_eq_true, Bool.not_eq_true, List.mem_map] at hnot ⊢
      simp only [List.any_eq_true, beq_iff_eq] at hnot ⊢
      intro hx
      obtain ⟨a, ha, hname⟩ := hx
      exact hnot ⟨a, ha, hname⟩
    unfold parseDecision
    rw [hvalid]
    rfl
  · intro reg df mi msg hreg
    rcases dynRun_shape reg df mi msg hreg with ⟨_, h⟩ | ⟨_, t', c', p, h⟩
    · exact ⟨_, _, h⟩
    · exact ⟨t', _, h⟩

/-- C5 witness: an unmatched decision falls back to the registry; the
empty-decision run completes. -/
theorem malformed_decision_fallback_witness :
    parseDecision demoXY "Zed" = demoXY.map (fun a => a.name) ∧
    (∃ t' s', run demoXY (dynamicSelect demoXY (fun _ => "")) DynState.init 3
        "go" = .ok (t', s')) :=
  ⟨malformed_decision_fallback.1 demoXY "Zed" (by decide),
    malformed_decision_fallback.2.2 demoXY (fun _ => "") 3 "go"
      (by simp [demoXY])⟩

/-- The unfolding equation of `rrNames`. -/
theorem rrNames_succ (reg : List Agent) (c m : Nat) :
    rrNames reg c (m + 1) =
      (reg.getD (c % reg.length) deadAgent).name :: rrNames reg (c + 1) m := rfl

/-- Splitting a run of round-robin selections. -/
theorem rrNames_append (reg : List Agent) :
    ∀ (m1 m2 c : Nat),
      rrNames reg c (m1 + m2) = rrNames reg c m1 ++ rrNames reg (c + m1) m2 := by
  intro m1
  induction m1 with
  | zero =>
    intro m2 c
    simp [rrNames]
  | succ m1 ih =>
    intro m2 c
    have h1 : m1 + 1 + m2 = (m1 + m2) + 1 := by omega
    rw [h1, rrNames_succ, rrNames_succ, ih m2 (c + 1), List.cons_append]
    have h2 : c + 1 + m1 = c + (m1 + 1) := by omega
    rw [h2]

/-- Advancing the index by one full cycle does not change the selected
names. -/
theorem rrNames_shift (reg : List Agent) :
    ∀ (m c : Nat), rrNames reg (c + reg.length) m = rrNames reg c m := by
  intro m
  induction m with
  | zero => intro c; rfl
  | succ m ih =>
    intro c
    rw [rrNames_succ, rrNames_succ, Nat.add_mod_right]
    have h1 : c + reg.length + 1 = (c + 1) + reg.length := by omega
    rw [h1, ih (c + 1)]

/-- Advancing the index by whole cycles does not change the selected
names. -/
theorem rrNames_shift_mul (reg : List Agent) :
    ∀ (k m : Nat), rrNames reg (k * reg.length) m = rrNames reg 0 m := by
  intro k
  induction k with
  | zero =>
    intro m
    rw [Nat.zero_mul]
  | succ k ih =>
    intro m
    have h1 : (k + 1) * reg.length = k * reg.length + reg.length := by ring
    rw [h1, rrNames_shift reg m (k * reg.length), ih m]

/-- Within one cycle, round-robin reads off the registry itself. -/
theorem rrNames_in_round (reg : List Agent) :
    ∀ (m c : Nat), c + m ≤ reg.length →
      rrNames reg c m = ((reg.drop c).take m).map (fun a => a.name) := by
  intro m
  induction m with
  | zero =>
    intro c h
    simp [rrNames]
  | succ m ih =>
    intro c h
    have hlt : c < reg.length := by omega
    rw [rrNames_succ, Nat.mod_eq_of_lt hlt, List.getD_eq_get reg deadAgent hlt,
      List.drop_eq_get_cons hlt, List.take_succ_cons, List.map_cons,
      ih (c + 1) (by omega)]

/-- One full cycle of round-robin is the registry's name list. -/
theorem rrNames_one_round (reg : List Agent) :
    rrNames reg 0 reg.length = reg.map (fun a => a.name) := by
  rw [rrNames_in_round reg reg.length 0 (by omega)]
  rw [List.drop_zero, List.take_length]

/-- The `i`-th round-robin selection is the registry entry at
`(c + i) % N`. -/
theorem rrNames_getD (reg : List Agent) :
    ∀ (m c i : Nat), i < m →
      (rrNames reg c m).getD i "" =
        (reg.getD ((c + i) % reg.length) deadAgent).name := by
  intro m
  induction m with
  | zero =>
    intro c i h
    omega
  | succ m ih =>
    intro c i h
    cases i with
    | zero =>
      rw [rrNames_succ, List.getD_cons_zero, Nat.add_zero]
    | succ i =>
      rw [rrNames_succ, List.getD_cons_succ, ih (c + 1) i (by omega)]
      have h1 : c + 1 + i = c + (i + 1) := by omega
      rw [h1]

/-- Over `k` full cycles each registered agent is selected exactly `k`
times (unique names). -/
theorem rrNames_count (reg : List Agent) (hreg : reg ≠ [])
    (hnd : (reg.map (fun a => a.name)).Nodup) (a : Agent) (ha : a ∈ reg) :
    ∀ k, (rrNames reg 0 (k * reg.length)).count a.name = k := by
  intro k
  induction k with
  | zero =>
    rw [Nat.zero_mul]
    rfl
  | succ k ih =>
    have h1 : (k + 1) * reg.length = k * reg.length + reg.length := by ring
    rw [h1, rrNames_append reg (k * reg.length) reg.length 0,
      List.count_append, ih, Nat.zero_add, rrNames_shift_mul reg k reg.length,
      rrNames_one_round reg,
      List.count_eq_one_of_mem hnd (List.mem_map.mpr ⟨a, ha, rfl⟩)]

/-- C7: round-robin fairness — each invocation selects exactly one
agent, the one at the index counter's wraparound position in
registration order, incrementing the counter; the `i`-th selection
(counted from 0) is the registry entry at `i % N`; and over `M = k * N`
invocations each of the `N` uniquely named agents is selected exactly
`k` times. -/
theorem round_robin_fairness :
    (∀ (reg : List Agent) (idx : Nat) (t : List Turn),
      reg ≠ [] →
      roundRobinSelect reg idx t =
        .ok ([(reg.getD (idx % reg.length) deadAgent).name], idx + 1)) ∧
    (∀ (reg : List Agent) (m i : Nat), i < m →
      (rrNames reg 0 m).getD i "" =
        (reg.getD (i % reg.length) deadAgent).name) ∧
    (∀ (reg : List Agent) (a : Agent) (k : Nat),
      reg ≠ [] → (reg.map (fun a => a.name)).Nodup → a ∈ reg →
      (rrNames reg 0 (k * reg.length)).count a.name = k) := by
  refine ⟨?_, ?_, ?_⟩
  · intro reg idx t hreg
    have hlen : reg.length ≠ 0 := by simpa using hreg
    have hlt : idx % reg.length < reg.length :=
      Nat.mod_lt _ (Nat.pos_of_ne_zero hlen)
    unfold roundRobinSelect
    rw [dif_neg hlen, List.getD_eq_get reg deadAgent hlt]
  · intro reg m i h
    rw [rrNames_getD reg m 0 i h, Nat.zero_add]
  · intro reg a k hreg hnd ha
    exact rrNames_count reg hreg hnd a ha k

/-- C7 witness: concrete round-robin selections over three agents. -/
theorem round_robin_fairness_witness :
    roundRobinSelect demoABC 4 [] = .ok (["B"], 5) ∧
    (rrNames demoABC 0 6).getD 4 "" = "B" ∧
    (rrNames demoABC 0 (2 * demoABC.length)).count
      (stubAgent "B" "beta").name = 2 :=
  ⟨round_robin_fairness.1 demoABC 4 [] (by simp [demoABC]),
    round_robin_fairness.2.1 demoABC 6 4 (by decide),
    round_robin_fairness.2.2 demoABC (stubAgent "B" "beta") 2
      (by simp [demoABC]) (by decide)
      (List.Mem.tail _ (List.Mem.head _))⟩
